import Mathlib

/-!
Verification of the core algorithmic stages of `elliott_wave_forecast_app.py`
(zigzag pivot detection, wave feature extraction, triangle pattern
classification, training-set construction, and the run-analysis guard).

Prices and derived scalars are embedded as rationals (`ℚ`): the Python code
computes with IEEE floats, but every claim under study is about exact
structural/arithmetic behaviour on small rational inputs, where float and
rational evaluation agree.  Rational division is total in Lean (`x / 0 = 0`);
the source performs each division unguarded, and no claim depends on the
value produced by a division by zero except where explicitly discussed
(claim C5, where the unguardedness itself is the subject).

`np.std` (population standard deviation of a price slice) is irrational in
general, so the embedding abstracts the numeric routine as a parameter
`std : List ℚ → ℚ` passed to `extract_wave_features`; the source's guard
(`if duration > 0 else 0`) and the slice handed to it are embedded faithfully,
and every theorem quantifies over `std`, so nothing depends on its values.
-/

/-! ## Zigzag pivot detection (`zigzag_detector`, source lines 16–37) -/

/-- Loop state of `zigzag_detector`: the accumulated `pivots`, the anchor
price `last`, the anchor index `last_index`, and `trend_up`
(`none` models Python's initial `None`). -/
structure ZState where
  pivots : List (Nat × ℚ)
  last : ℚ
  last_index : Nat
  trend_up : Option Bool
deriving Repr, DecidableEq

/-- One iteration of the `for i in range(1, len(prices))` loop of
`zigzag_detector`, processing price `p` at position `i`:
`change = (prices[i] - last) / last`; if `trend_up is None` it is set to
`change > 0`; an up-trend whose change falls to `-threshold` or below emits
the anchor `(last_index, last)` and flips down, resetting the anchor to
`(i, p)`; symmetrically a down-trend whose change rises to `threshold`
or above emits the anchor and flips up. -/
def zstep (threshold : ℚ) (s : ZState) (i : Nat) (p : ℚ) : ZState :=
  let change := (p - s.last) / s.last
  let tu := s.trend_up.getD (decide (change > 0))
  if tu = true ∧ change ≤ -threshold then
    ⟨s.pivots ++ [(s.last_index, s.last)], p, i, some false⟩
  else if tu = false ∧ change ≥ threshold then
    ⟨s.pivots ++ [(s.last_index, s.last)], p, i, some true⟩
  else
    { s with trend_up := some tu }

/-- The scan over `prices[1:]`, carrying the running position `i`. -/
def zigzagGo (threshold : ℚ) : Nat → List ℚ → ZState → ZState
  | _, [], s => s
  | i, p :: ps, s => zigzagGo threshold (i + 1) ps (zstep threshold s i p)

/-- Embedding of `zigzag_detector(prices, threshold)` (source lines 16–37): scans
`prices[1:]` with `zstep` starting from anchor `(0, prices[0])` and
`trend_up = None`, then unconditionally appends the terminal pivot
`(len(prices) - 1, prices[-1])`.  (On `[]` the Python code would raise
`IndexError` reading `prices[0]`; every claim assumes a non-empty series.) -/
def zigzag_detector (prices : List ℚ) (threshold : ℚ) : List (Nat × ℚ) :=
  match prices with
  | [] => []
  | p0 :: rest =>
    let s := zigzagGo threshold 1 rest ⟨[], p0, 0, none⟩
    s.pivots ++ [((p0 :: rest).length - 1, rest.getLastD p0)]

/-- Predicate `altB l = true` iff consecutive entries of `l` are pairwise distinct and
every interior entry is a strict local maximum or a strict local minimum —
i.e. the signs of the consecutive differences strictly alternate.  Used to
state the pivot-alternation claim. -/
def altB : List ℚ → Bool
  | a :: b :: c :: rest =>
      (decide ((a < b ∧ c < b) ∨ (b < a ∧ b < c))) && altB (b :: c :: rest)
  | [a, b] => decide (a ≠ b)
  | _ => true

/-! ## Wave feature extraction (`extract_wave_features`, source lines 40–58) -/

/-- One row of the waves DataFrame built by `extract_wave_features`
(columns `Start, End, Change, Duration, Slope, Volatility, Direction`),
plus the `Label` column that `label_and_prepare` later adds in place:
`label = none` models the column being absent. `duration` is `ℤ`, as Python
subtraction of indices can be negative for arbitrary pivot input. -/
structure WaveRow where
  start : Nat
  stop : Nat
  change : ℚ
  duration : ℤ
  slope : ℚ
  volatility : ℚ
  direction : ℚ
  label : Option String
deriving Repr, DecidableEq, Inhabited

/-- Embedding of `extract_wave_features(prices, pivots)` (source lines 40–58): one row per
consecutive pivot pair `(i1, p1), (i2, p2)` (the zip of `pivots` with its
tail embeds `for i in range(len(pivots) - 1)`), with
`duration = i2 - i1`, `change = (p2 - p1) / p1` (unguarded division),
`slope = change / duration if duration != 0 else 0`,
`volatility = np.std(prices[i1:i2]) if duration > 0 else 0` (the numeric
routine `np.std` abstracted as `std`), and
`direction = 1 if change > 0 else 0`.  The `Label` column does not exist yet
(`label := none`). -/
def extract_wave_features (std : List ℚ → ℚ) (prices : List ℚ)
    (pivots : List (Nat × ℚ)) : List WaveRow :=
  (pivots.zip pivots.tail).map (fun (pq : (Nat × ℚ) × (Nat × ℚ)) =>
    let i1 := pq.1.1
    let p1 := pq.1.2
    let i2 := pq.2.1
    let p2 := pq.2.2
    let duration : ℤ := (i2 : ℤ) - (i1 : ℤ)
    let change := (p2 - p1) / p1
    let slope := if duration ≠ 0 then change / (duration : ℚ) else 0
    let volatility := if duration > 0 then std ((prices.drop i1).take (i2 - i1)) else 0
    let direction : ℚ := if change > 0 then 1 else 0
    ⟨i1, i2, change, duration, slope, volatility, direction, none⟩)

/-! ## Labeling and training-set construction (`label_and_prepare`, lines 61–73) -/

/-- The positional label assigned to wave `i` by the list comprehension
`['Wave_' + str(i + 1) if i < 5 else 'Unknown' for i in range(len(df))]`. -/
def labelOf (i : Nat) : String :=
  if i < 5 then "Wave_" ++ toString (i + 1) else "Unknown"

/-- The in-place column assignment `df['Label'] = [...]`: every row at
position `k + i` (scanning rows of `ws` with a running offset `k`) receives
`labelOf (k + i)`; all other columns are untouched. -/
def assignLabels : Nat → List WaveRow → List WaveRow
  | _, [] => []
  | k, w :: ws => { w with label := some (labelOf k) } :: assignLabels (k + 1) ws

/-- The five scalar attributes of a row appended to the feature list, in the
source's order `Change, Duration, Slope, Volatility, Direction`. -/
def rowFeatures (w : WaveRow) : List ℚ :=
  [w.change, (w.duration : ℚ), w.slope, w.volatility, w.direction]

/-- Embedding of `label_and_prepare(df)` (source lines 61–73).  The source first mutates
`df` in place (`df['Label'] = ...`); explicit state passing returns the
mutated table as the first component.  Then for `i in range(len(df) - 5)` it
builds the feature list of window `i` (`features += [...]` for
`j in range(4)`, embedded as a `foldl` over `List.range 4`), the class
target `window.iloc[4]['Label']` and the regression target
`window.iloc[4]['Change']`. -/
def label_and_prepare (df : List WaveRow) :
    List WaveRow × List (List ℚ) × List String × List ℚ :=
  let df2 := assignLabels 0 df
  let X := (List.range (df2.length - 5)).map (fun i =>
    (List.range 4).foldl (fun acc j => acc ++ rowFeatures (df2.getD (i + j) default)) [])
  let y_class := (List.range (df2.length - 5)).map (fun i =>
    (df2.getD (i + 4) default).label.getD "")
  let y_reg := (List.range (df2.length - 5)).map (fun i =>
    (df2.getD (i + 4) default).change)
  (df2, X, y_class, y_reg)

/-! ## Triangle pattern detection (`detect_triangles`, source lines 76–88) -/

/-- Embedding of `detect_triangles(pivots)` (source lines 76–88): for each window
`sub = pivots[i:i+5]` (embedded as structural recursion over the list, one
window per tail of length ≥ 5, in order), the prices at even window
positions 0, 2, 4 form `highs = [h0, h1, h2]` and the odd positions 1, 3
form `lows = [l0, l1]`.  Rules in source order with `elif` (first match
wins): Contracting (`highs` strictly decreasing and `lows` strictly
increasing), Running (`highs[-1] > highs[0] and lows[-1] > lows[0]`),
Barrier (`highs[-1] == highs[0] or lows[-1] == lows[0]`); no match emits
nothing.  Emissions are anchored at `sub[2][0]`, the middle pivot's index. -/
def detect_triangles : List (Nat × ℚ) → List (Nat × String)
  | (_i0, h0) :: (i1, l0) :: (i2, h1) :: (i3, l1) :: (i4, h2) :: rest =>
    let tail := detect_triangles ((i1, l0) :: (i2, h1) :: (i3, l1) :: (i4, h2) :: rest)
    if h1 < h0 ∧ h2 < h1 ∧ l1 > l0 then (i2, "Contracting Triangle") :: tail
    else if h2 > h0 ∧ l1 > l0 then (i2, "Running Triangle") :: tail
    else if h2 = h0 ∨ l1 = l0 then (i2, "Barrier Triangle") :: tail
    else tail
  | _ => []
termination_by l => l.length

/-- The classification rule of one 5-pivot window as worded by the spec:
the prices at window positions 0, 2, 4 are the highs `h0, h1, h2` and the
prices at positions 1, 3 are the lows `l0, l1`.  The three rules are
evaluated in the fixed order Contracting Triangle (every successive high
strictly lower than its predecessor and every successive low strictly
higher), then Running Triangle (last high above first high and last low
above first low), then Barrier Triangle (last high equals first high or
last low equals first low); the first matching rule wins and a window
matching none emits nothing; an emission is anchored at the middle
(position-2) pivot's index. -/
def triangleRule (p0 p1 p2 p3 p4 : Nat × ℚ) : Option (Nat × String) :=
  if p2.2 < p0.2 ∧ p4.2 < p2.2 ∧ p3.2 > p1.2 then some (p2.1, "Contracting Triangle")
  else if p4.2 > p0.2 ∧ p3.2 > p1.2 then some (p2.1, "Running Triangle")
  else if p4.2 = p0.2 ∨ p3.2 = p1.2 then some (p2.1, "Barrier Triangle")
  else none

/-- The Pattern Classifier as worded by the spec: for each window of 5
consecutive pivots (window `i` being `pivots[i:i+5]`, one for every
`i < len(pivots) - 4`), apply `triangleRule` to the window's five pivots
and collect the emissions in window order. -/
def detect_triangles_spec (pivots : List (Nat × ℚ)) : List (Nat × String) :=
  (List.range (pivots.length - 4)).filterMap (fun i =>
    triangleRule (pivots.getD i (0, 0)) (pivots.getD (i + 1) (0, 0))
      (pivots.getD (i + 2) (0, 0)) (pivots.getD (i + 3) (0, 0))
      (pivots.getD (i + 4) (0, 0)))

/-! ## The Run Analysis guard (source lines 105–122) -/

/-- Outcome of the module-level `Run Analysis` block. `error msg` is the
`st.error(msg)` path taken when `len(X) < 2`, on which no model is fitted;
`fitted X y_class y_reg` records that the two RandomForest models (external,
unseeded sklearn collaborators) are fitted on exactly this training data. -/
inductive RunOutcome where
  | error (msg : String)
  | fitted (X : List (List ℚ)) (y_class : List String) (y_reg : List ℚ)
deriving Repr, DecidableEq

/-- The core pipeline of the `Run Analysis` block (source lines 105–122):
`pivots = zigzag_detector(prices, threshold)`,
`waves_df = extract_wave_features(prices, pivots)`,
`X, y_class, y_reg = label_and_prepare(waves_df)`, and the guard
`if len(X) < 2: st.error("Not enough data to train AI. ...")` with model
fitting only in the `else` branch.  The sklearn fit/predict calls are
external and unseeded, so the embedding stops at the guard and records the
training data handed to the models. -/
def run_analysis (std : List ℚ → ℚ) (prices : List ℚ) (threshold : ℚ) :
    RunOutcome :=
  let pivots := zigzag_detector prices threshold
  let waves_df := extract_wave_features std prices pivots
  let r := label_and_prepare waves_df
  if r.2.1.length < 2 then
    .error "Not enough data to train AI. Adjust the period or interval."
  else
    .fitted r.2.1 r.2.2.1 r.2.2.2

/-! ## Generic loop-invariant lemma for the zigzag scan -/

/-- An invariant preserved by `zstep` (over positive prices) holds after the
whole scan, with the position counter advanced by the number of prices
consumed. -/
theorem zigzagGo_inv (threshold : ℚ) (P : Nat → ZState → Prop)
    (hstep : ∀ i p s, 0 < p → P i s → P (i + 1) (zstep threshold s i p)) :
    ∀ (ps : List ℚ) (i : Nat) (s : ZState), (∀ p ∈ ps, 0 < p) → P i s →
      P (i + ps.length) (zigzagGo threshold i ps s) := by
  intro ps
  induction ps with
  | nil => intro i s _ h; simpa [zigzagGo] using h
  | cons p ps ih =>
    intro i s hpos h
    have h1 : P (i + 1) (zstep threshold s i p) :=
      hstep i p s (hpos p (List.mem_cons_self p ps)) h
    have h2 := ih (i + 1) (zstep threshold s i p)
      (fun q hq => hpos q (List.mem_cons_of_mem p hq)) h1
    have harr : i + (p :: ps).length = i + 1 + ps.length := by
      simp only [List.length_cons]; omega
    rw [harr]
    simpa [zigzagGo] using h2

/-- Structural invariant of the zigzag scan: emitted pivot indices are
strictly increasing, all below the anchor index, the anchor index is below
the next position to be scanned, the anchor index is `0` while nothing has
been emitted, and the first emitted pivot (if any) has index `0`. -/
def ZInvC1 (i : Nat) (s : ZState) : Prop :=
  List.Chain' (· < ·) (s.pivots.map Prod.fst) ∧
  (∀ q ∈ s.pivots, q.1 < s.last_index) ∧
  s.last_index < i ∧
  (s.pivots = [] → s.last_index = 0) ∧
  (∀ q, s.pivots.head? = some q → q.1 = 0)

theorem zstep_ZInvC1 (threshold : ℚ) :
    ∀ i p s, 0 < p → ZInvC1 i s → ZInvC1 (i + 1) (zstep threshold s i p) := by
  intro i p s _ hinv
  obtain ⟨hchain, hbound, hlt, hemp, hhead⟩ := hinv
  have hemit : ZInvC1 (i + 1)
      ⟨s.pivots ++ [(s.last_index, s.last)], p, i, some false⟩ ∧
      ZInvC1 (i + 1)
      ⟨s.pivots ++ [(s.last_index, s.last)], p, i, some true⟩ := by
    have key : ZInvC1 (i + 1)
        ⟨s.pivots ++ [(s.last_index, s.last)], p, i, some false⟩ := by
      refine ⟨?_, ?_, by show i < i + 1; omega, by simp, ?_⟩
      · rw [List.map_append, List.chain'_append]
        refine ⟨hchain, List.chain'_singleton _, ?_⟩
        intro x hx y hy
        simp only [List.head?_cons, List.map_cons, Option.mem_def,
          Option.some.injEq] at hy
        subst hy
        rw [List.getLast?_map] at hx
        obtain ⟨q, hq, rfl⟩ := Option.map_eq_some'.mp hx
        exact hbound q (List.mem_of_getLast?_eq_some hq)
      · intro q hq
        rcases List.mem_append.mp hq with h | h
        · exact lt_trans (hbound q h) hlt
        · simp only [List.mem_singleton] at h
          subst h
          exact hlt
      · intro q hq
        cases hp : s.pivots with
        | nil =>
          rw [hp] at hq
          simp only [List.nil_append, List.head?_cons, Option.some.injEq] at hq
          subst hq
          exact hemp hp
        | cons a l =>
          rw [hp] at hq
          simp only [List.cons_append, List.head?_cons, Option.some.injEq] at hq
          subst hq
          exact hhead a (by rw [hp]; rfl)
    exact ⟨key, ⟨key.1, key.2.1, key.2.2.1, key.2.2.2.1, key.2.2.2.2⟩⟩
  dsimp only [zstep]
  split
  · exact hemit.1
  · split
    · exact hemit.2
    · exact ⟨hchain, hbound, by show s.last_index < i + 1; omega, hemp, hhead⟩

/-- Claim C1 fails as stated: for the non-empty series `[10, 11]` and
threshold `1/2 ∈ (0,1)` the detector never crosses the threshold, so the
only pivot returned is the terminal one, `(1, 11)` — its index is `1`,
not `0`. -/
theorem C1_cex :
    ((0:ℚ) < 1/2 ∧ (1/2:ℚ) < 1 ∧ ([10, 11] : List ℚ) ≠ []) ∧
    ((zigzag_detector [10, 11] (1/2)).headD (0, 0)).1 ≠ 0 := by
  with_unfolding_all decide

/-- Claim C1, amended: for every non-empty positive price series and
threshold in `(0,1)`, the pivot indices returned by `zigzag_detector` are
strictly increasing and the last pivot is the terminal one at index
`len(prices) - 1`; the first pivot has index `0` whenever at least two
pivots are returned (i.e. whenever some reversal crossed the threshold) —
with no reversal the single returned pivot is the terminal one. -/
theorem C1_amended_thm (prices : List ℚ) (threshold : ℚ) (hne : prices ≠ [])
    (hpos : ∀ p ∈ prices, 0 < p) (ht0 : 0 < threshold) (ht1 : threshold < 1) :
    List.Chain' (· < ·) ((zigzag_detector prices threshold).map Prod.fst) ∧
    (zigzag_detector prices threshold).getLast?
      = some (prices.length - 1, prices.getLastD 0) ∧
    (2 ≤ (zigzag_detector prices threshold).length →
      ((zigzag_detector prices threshold).headD (0, 0)).1 = 0) := by
  match prices, hne with
  | p0 :: rest, _ =>
    have hinv0 : ZInvC1 1 ⟨[], p0, 0, none⟩ := by
      refine ⟨List.chain'_nil, by simp, by show 0 < 1; omega, fun _ => rfl, by simp⟩
    have hinv := zigzagGo_inv threshold ZInvC1 (zstep_ZInvC1 threshold) rest 1
      ⟨[], p0, 0, none⟩ (fun q hq => hpos q (List.mem_cons_of_mem p0 hq)) hinv0
    set s := zigzagGo threshold 1 rest ⟨[], p0, 0, none⟩ with hs
    obtain ⟨hchain, hbound, hlt, _, hhead⟩ := hinv
    have hzz : zigzag_detector (p0 :: rest) threshold
        = s.pivots ++ [((p0 :: rest).length - 1, rest.getLastD p0)] := rfl
    have hlen : (p0 :: rest).length - 1 = rest.length := by
      simp only [List.length_cons]; omega
    refine ⟨?_, ?_, ?_⟩
    · rw [hzz, List.map_append, List.chain'_append]
      refine ⟨hchain, List.chain'_singleton _, ?_⟩
      intro x hx y hy
      simp only [List.map_cons, List.head?_cons, Option.mem_def,
        Option.some.injEq] at hy
      subst hy
      rw [List.getLast?_map] at hx
      obtain ⟨q, hq, rfl⟩ := Option.map_eq_some'.mp hx
      have h1 : q.1 < s.last_index := hbound q (List.mem_of_getLast?_eq_some hq)
      have h2 : s.last_index < 1 + rest.length := hlt
      rw [hlen]
      omega
    · rw [hzz, List.getLast?_concat, List.getLastD_cons]
    · intro hlen2
      rw [hzz] at hlen2 ⊢
      cases hp : s.pivots with
      | nil =>
        rw [hp] at hlen2
        simp at hlen2
      | cons a l =>
        have ha : a.1 = 0 := hhead a (by rw [hp]; rfl)
        simpa using ha

/-- Witness for C1 (amended) at the scenario input: pivots
`[(0,10), (3,8), (5,15)]` have strictly increasing indices, terminal pivot
`(5, 15)`, and first index `0`. -/
theorem C1_amended_witness :
    List.Chain' (· < ·) ((zigzag_detector [10, 11, 12, 8, 9, 15] (1/5)).map Prod.fst) ∧
    (zigzag_detector [10, 11, 12, 8, 9, 15] (1/5)).getLast? = some (5, 15) ∧
    (2 ≤ (zigzag_detector [10, 11, 12, 8, 9, 15] (1/5)).length →
      ((zigzag_detector [10, 11, 12, 8, 9, 15] (1/5)).headD (0, 0)).1 = 0) :=
  C1_amended_thm [10, 11, 12, 8, 9, 15] (1/5) (by simp)
    (by with_unfolding_all decide) (by with_unfolding_all decide)
    (by with_unfolding_all decide)

/-- Claim C2 fails as stated: on prices `[10,11,12,8,9,15]` with threshold
`0.2` the detector does not return the pivots `(2,12), (3,8), (5,15)`.  The
code compares each price to the anchor `last`, which stays at the previous
pivot's price and is never advanced to the running extreme, so when the
drop to `8` triggers the first reversal the emitted pivot is the anchor
`(0, 10)` — not the local high `(2, 12)` described by the spec. -/
theorem C2_cex :
    zigzag_detector [10, 11, 12, 8, 9, 15] (1/5) ≠ [(2, 12), (3, 8), (5, 15)] := by
  with_unfolding_all decide

/-- Claim C2, amended: on `[10,11,12,8,9,15]` with threshold `0.2` the
detector returns exactly the pivots `(0, 10)` (the initial anchor, emitted
when the drop to 8 crosses the threshold), `(3, 8)` (emitted when the rise
to 15 crosses it) and the terminal pivot `(5, 15)`. -/
theorem C2_amended_thm :
    zigzag_detector [10, 11, 12, 8, 9, 15] (1/5) = [(0, 10), (3, 8), (5, 15)] := by
  with_unfolding_all decide

/-! ## Length and telescoping-sum facts for `extract_wave_features` -/

theorem extract_wave_features_length (std : List ℚ → ℚ) (prices : List ℚ)
    (pivots : List (Nat × ℚ)) :
    (extract_wave_features std prices pivots).length = pivots.length - 1 := by
  simp only [extract_wave_features, List.length_map, List.length_zip,
    List.length_tail]
  omega

theorem extract_wave_features_durations_sum (std : List ℚ → ℚ) (prices : List ℚ) :
    ∀ (p : Nat × ℚ) (l : List (Nat × ℚ)),
      ((extract_wave_features std prices (p :: l)).map (fun w => w.duration)).sum
        = ((l.getLastD p).1 : ℤ) - (p.1 : ℤ) := by
  intro p l
  induction l generalizing p with
  | nil => simp [extract_wave_features]
  | cons q l ih =>
    have hq := ih q
    simp only [extract_wave_features, List.tail_cons, List.zip_cons_cons,
      List.map_cons, List.sum_cons] at hq ⊢
    rw [List.getLastD_cons, hq]
    ring

/-- Claim C5 fails as stated: `extract_wave_features` does not guard the
zero-start-price case.  For pivots `[(0, 0), (1, 5)]` (start price `0`) it
emits one perfectly ordinary wave row — nothing is rejected and no
`DegenerateWave` condition exists — whose `change` is the raw unguarded
quotient `(5 - 0) / 0` (a `ZeroDivisionError` or an undocumented numpy
`inf`/`nan` in the source; the rational totalisation of the embedding). -/
theorem C5_cex :
    extract_wave_features (fun _ => 0) [0, 5] [(0, 0), (1, 5)]
      = [⟨0, 1, (5 - 0) / 0, 1, (5 - 0) / 0 / 1, 0, 0, none⟩] := by
  with_unfolding_all decide

/-- Claim C5, amended: `extract_wave_features` performs the division
unguarded.  A consecutive pivot pair whose start price is `0` is processed
exactly like any other pair: it still contributes its wave row (the output
keeps one row per consecutive pair) and the row's `change` is the raw
quotient `(p2 - 0) / 0` — no rejection, no `DegenerateWave` condition, no
documented infinite/NaN handling. -/
theorem C5_amended_thm (std : List ℚ → ℚ) (prices : List ℚ) (i1 i2 : Nat)
    (p2 : ℚ) (rest : List (Nat × ℚ)) :
    (extract_wave_features std prices ((i1, 0) :: (i2, p2) :: rest)).length
      = ((i1, (0:ℚ)) :: (i2, p2) :: rest).length - 1 ∧
    ((extract_wave_features std prices ((i1, 0) :: (i2, p2) :: rest)).headD
        default).change = (p2 - 0) / 0 := by
  constructor
  · exact extract_wave_features_length std prices _
  · simp [extract_wave_features]

/-- Claim C6 fails as stated: `zigzag_detector` performs no threshold
validation at all.  At threshold `0` (and likewise at threshold `2 ≥ 1`) it
happily returns a pivot sequence instead of rejecting the input — there is
no `InvalidThreshold` condition anywhere in the code, and the surrounding
UI even clamps the slider to `[0.01, 0.10]` so the case is never guarded
elsewhere either. -/
theorem C6_cex :
    zigzag_detector [10, 8, 11] 0 = [(0, 10), (2, 11)] ∧
    zigzag_detector [10, 8, 11] 2 = [(2, 11)] := by
  with_unfolding_all decide

/-- Claim C6, amended: for every threshold — including `0` and values `≥ 1`
— `zigzag_detector` does not reject: on any non-empty price series it
returns a non-empty pivot sequence ending with the terminal pivot
`(len(prices) - 1, prices[-1])`. -/
theorem C6_amended_thm (prices : List ℚ) (threshold : ℚ) (hne : prices ≠ []) :
    zigzag_detector prices threshold ≠ [] ∧
    (zigzag_detector prices threshold).getLast?
      = some (prices.length - 1, prices.getLastD 0) := by
  match prices, hne with
  | p0 :: rest, _ =>
    have hzz : zigzag_detector (p0 :: rest) threshold
        = (zigzagGo threshold 1 rest ⟨[], p0, 0, none⟩).pivots
          ++ [((p0 :: rest).length - 1, rest.getLastD p0)] := rfl
    rw [hzz]
    exact ⟨by simp, by rw [List.getLast?_concat, List.getLastD_cons]⟩

/-- Witness for C6 (amended) at threshold `0`, which the original claim
says must be rejected: the returned pivot list is non-empty and ends with
the terminal pivot `(2, 11)`. -/
theorem C6_amended_witness :
    zigzag_detector [10, 8, 11] 0 ≠ [] ∧
    (zigzag_detector [10, 8, 11] 0).getLast? = some (2, 11) :=
  C6_amended_thm [10, 8, 11] 0 (by simp)

/-- Claim C8, confirmed: for every pivot sequence of length at least 2,
`extract_wave_features` returns exactly `len(pivots) - 1` waves, and their
durations sum to `pivots[-1].index - pivots[0].index`; for a pivot sequence
of length 0 or 1 it returns the empty sequence rather than an error. -/
theorem C8_waves_thm (std : List ℚ → ℚ) (prices : List ℚ)
    (pivots : List (Nat × ℚ)) :
    (2 ≤ pivots.length →
      (extract_wave_features std prices pivots).length = pivots.length - 1 ∧
      ((extract_wave_features std prices pivots).map (fun w => w.duration)).sum
        = ((pivots.getLastD (0, 0)).1 : ℤ) - ((pivots.headD (0, 0)).1 : ℤ)) ∧
    (pivots.length ≤ 1 → extract_wave_features std prices pivots = []) := by
  constructor
  · intro h2
    refine ⟨extract_wave_features_length std prices pivots, ?_⟩
    match pivots, h2 with
    | p :: l, _ =>
      rw [extract_wave_features_durations_sum std prices p l, List.getLastD_cons,
        List.headD_cons]
  · intro h1
    match pivots, h1 with
    | [], _ => rfl
    | [p], _ => rfl

/-- Witness for C8 at the scenario pivots `[(0,10), (3,8), (5,15)]`:
two waves, with durations summing to `5 - 0 = 5`; and at the singleton
pivot list `[(0, 10)]`: no waves. -/
theorem C8_waves_witness :
    ((extract_wave_features (fun _ => 0) [10, 11, 12, 8, 9, 15]
        [(0, 10), (3, 8), (5, 15)]).length = 2 ∧
      ((extract_wave_features (fun _ => 0) [10, 11, 12, 8, 9, 15]
        [(0, 10), (3, 8), (5, 15)]).map (fun w => w.duration)).sum = 5) ∧
    extract_wave_features (fun _ => 0) [10, 11, 12, 8, 9, 15] [(0, 10)] = [] :=
  ⟨(C8_waves_thm (fun _ => 0) [10, 11, 12, 8, 9, 15]
      [(0, 10), (3, 8), (5, 15)]).1 (by simp),
    (C8_waves_thm (fun _ => 0) [10, 11, 12, 8, 9, 15] [(0, 10)]).2 (by simp)⟩

/-! ## Alternation lemmas for `altB` -/

theorem altB_cons_cons (a b : ℚ) (l : List ℚ) (h : l ≠ []) :
    altB (a :: b :: l)
      = ((decide ((a < b ∧ l.headD 0 < b) ∨ (b < a ∧ b < l.headD 0)))
          && altB (b :: l)) := by
  cases l with
  | nil => exact absurd rfl h
  | cons c r => rfl

theorem altB_of_concat : ∀ (xs : List ℚ) (y : ℚ),
    altB (xs ++ [y]) = true → altB xs = true := by
  intro xs
  induction xs with
  | nil => intro y _; rfl
  | cons a t ih =>
    intro y h
    cases t with
    | nil => rfl
    | cons b t2 =>
      simp only [List.cons_append] at h
      rw [altB_cons_cons a b (t2 ++ [y]) (by simp), Bool.and_eq_true] at h
      obtain ⟨h1, h2⟩ := h
      have h3 : altB (b :: t2) = true := ih y (by simpa using h2)
      cases t2 with
      | nil =>
        show decide (a ≠ b) = true
        rw [decide_eq_true_eq]
        simp only [List.nil_append, List.headD_cons, decide_eq_true_eq] at h1
        rcases h1 with ⟨hab, _⟩ | ⟨hba, _⟩
        · exact ne_of_lt hab
        · exact ne_of_gt hba
      | cons c t3 =>
        rw [altB_cons_cons a b (c :: t3) (by simp), Bool.and_eq_true]
        simp only [List.cons_append, List.headD_cons] at h1
        exact ⟨by simpa using h1, h3⟩

theorem altB_snoc_of : ∀ (xs : List ℚ) (y z : ℚ),
    altB (xs ++ [y]) = true →
    (∀ x, xs.getLast? = some x → ((x < y ∧ z < y) ∨ (y < x ∧ y < z))) →
    y ≠ z →
    altB ((xs ++ [y]) ++ [z]) = true := by
  intro xs
  induction xs with
  | nil =>
    intro y z _ _ hne
    show decide (y ≠ z) = true
    exact decide_eq_true hne
  | cons a t ih =>
    intro y z h hlast hne
    cases t with
    | nil =>
      have hcond := hlast a rfl
      show (decide ((a < y ∧ z < y) ∨ (y < a ∧ y < z)) && altB [y, z]) = true
      rw [Bool.and_eq_true]
      exact ⟨decide_eq_true hcond, decide_eq_true hne⟩
    | cons b t2 =>
      simp only [List.cons_append] at h ⊢
      rw [altB_cons_cons a b (t2 ++ [y]) (by simp), Bool.and_eq_true] at h
      obtain ⟨h1, h2⟩ := h
      have htail : altB (((b :: t2) ++ [y]) ++ [z]) = true := by
        refine ih y z (by simpa using h2) ?_ hne
        intro x hx
        exact hlast x (by rw [← List.getLast?_cons_cons (a := a)] at hx; exact hx)
      rw [altB_cons_cons a b ((t2 ++ [y]) ++ [z]) (by simp), Bool.and_eq_true]
      constructor
      · have hhd : ((t2 ++ [y]) ++ [z]).headD 0 = (t2 ++ [y]).headD 0 := by
          cases t2 <;> simp
        rw [hhd]
        exact h1
      · simpa using htail

/-! ## The alternation invariant of the zigzag scan -/

/-- Invariant for the alternation claim: the anchor price is positive, the
emitted pivot prices followed by the current anchor price strictly
alternate, and whenever a pivot has been emitted the trend flag is set and
points away from the last emitted pivot (up-trend: anchor above it;
down-trend: anchor below it). -/
def ZInvC4 (s : ZState) : Prop :=
  0 < s.last ∧
  altB (s.pivots.map Prod.snd ++ [s.last]) = true ∧
  (∀ q, s.pivots.getLast? = some q →
    s.trend_up ≠ none ∧
    (s.trend_up = some true → q.2 < s.last) ∧
    (s.trend_up = some false → s.last < q.2))

theorem zstep_ZInvC4 (threshold : ℚ) (ht : 0 < threshold) :
    ∀ i p s, 0 < p → ZInvC4 s → ZInvC4 (zstep threshold s i p) := by
  intro i p s hp hinv
  obtain ⟨hlast, halt, htrend⟩ := hinv
  dsimp only [zstep]
  split
  case isTrue hcond =>
    obtain ⟨htu, hch⟩ := hcond
    have hplt : p < s.last := by
      rw [div_le_iff hlast] at hch
      nlinarith
    refine ⟨hp, ?_, ?_⟩
    · have hsnoc := altB_snoc_of (s.pivots.map Prod.snd) s.last p halt ?_
        (ne_of_gt hplt)
      · simpa using hsnoc
      · intro x hx
        rw [List.getLast?_map] at hx
        obtain ⟨q, hq, rfl⟩ := Option.map_eq_some'.mp hx
        have h3 := htrend q hq
        cases hs : s.trend_up with
        | none => exact absurd hs h3.1
        | some b =>
          rw [hs] at htu
          simp only [Option.getD_some] at htu
          subst htu
          exact Or.inl ⟨h3.2.1 hs, hplt⟩
    · intro q hq
      rw [List.getLast?_concat] at hq
      injection hq with hq'
      subst hq'
      exact ⟨by simp, fun hcontra => absurd hcontra (by simp), fun _ => hplt⟩
  case isFalse hfail =>
    split
    case isTrue hcond =>
      obtain ⟨htu, hch⟩ := hcond
      have hpgt : s.last < p := by
        rw [ge_iff_le, le_div_iff hlast] at hch
        nlinarith
      refine ⟨hp, ?_, ?_⟩
      · have hsnoc := altB_snoc_of (s.pivots.map Prod.snd) s.last p halt ?_
          (ne_of_lt hpgt)
        · simpa using hsnoc
        · intro x hx
          rw [List.getLast?_map] at hx
          obtain ⟨q, hq, rfl⟩ := Option.map_eq_some'.mp hx
          have h3 := htrend q hq
          cases hs : s.trend_up with
          | none => exact absurd hs h3.1
          | some b =>
            rw [hs] at htu
            simp only [Option.getD_some] at htu
            subst htu
            exact Or.inr ⟨h3.2.2 hs, hpgt⟩
      · intro q hq
        rw [List.getLast?_concat] at hq
        injection hq with hq'
        subst hq'
        exact ⟨by simp, fun _ => hpgt, fun hcontra => absurd hcontra (by simp)⟩
    case isFalse =>
      refine ⟨hlast, halt, ?_⟩
      intro q hq
      have h3 := htrend q hq
      cases hs : s.trend_up with
      | none => exact absurd hs h3.1
      | some b =>
        simp only [Option.getD_some]
        refine ⟨by simp, ?_, ?_⟩
        · intro hb
          injection hb with hb'
          subst hb'
          exact h3.2.1 hs
        · intro hb
          injection hb with hb'
          subst hb'
          exact h3.2.2 hs

/-- Claim C4 fails as stated: `[10, 11, 5, 8, 4.5]` is a non-empty positive
price series and `1/2 ∈ (0,1)`, yet the returned pivots
`(0,10), (2,5), (4,4.5)` move down twice in a row — the movement into the
unconditionally-appended terminal pivot need not alternate with the
preceding one. -/
theorem C4_cex :
    (((0:ℚ) < 1/2 ∧ (1/2:ℚ) < 1) ∧ ([10, 11, 5, 8, 9/2] : List ℚ) ≠ [] ∧
      (∀ p ∈ ([10, 11, 5, 8, 9/2] : List ℚ), 0 < p)) ∧
    zigzag_detector [10, 11, 5, 8, 9/2] (1/2) = [(0, 10), (2, 5), (4, 9/2)] ∧
    altB ((zigzag_detector [10, 11, 5, 8, 9/2] (1/2)).map Prod.snd) = false := by
  with_unfolding_all decide

/-- Claim C4, amended: for every non-empty positive price series and
threshold in `(0,1)`, the price changes between consecutive pivots strictly
alternate in sign among all pivots **except the terminal one** (which is
appended unconditionally and may continue in the same direction): dropping
the last pivot, the pivot prices form a strictly alternating sequence. -/
theorem C4_amended_thm (prices : List ℚ) (threshold : ℚ) (hne : prices ≠ [])
    (hpos : ∀ p ∈ prices, 0 < p) (ht0 : 0 < threshold) (ht1 : threshold < 1) :
    altB (((zigzag_detector prices threshold).dropLast).map Prod.snd) = true := by
  match prices, hne with
  | p0 :: rest, _ =>
    have h0 : ZInvC4 ⟨[], p0, 0, none⟩ :=
      ⟨hpos p0 (by simp), rfl, fun q hq => by simp at hq⟩
    have hinv := zigzagGo_inv threshold (fun _ s => ZInvC4 s)
      (fun i p s hp h => zstep_ZInvC4 threshold ht0 i p s hp h) rest 1
      ⟨[], p0, 0, none⟩ (fun q hq => hpos q (List.mem_cons_of_mem p0 hq)) h0
    set s := zigzagGo threshold 1 rest ⟨[], p0, 0, none⟩ with hs
    have hdrop : (zigzag_detector (p0 :: rest) threshold).dropLast = s.pivots := by
      show (s.pivots ++ [((p0 :: rest).length - 1, rest.getLastD p0)]).dropLast
          = s.pivots
      exact List.dropLast_concat
    rw [hdrop]
    exact altB_of_concat (s.pivots.map Prod.snd) s.last hinv.2.1

/-- Witness for C4 (amended): prices `[10, 12, 9, 12, 8]` with threshold
`0.1` yield pivots `(0,10), (2,9), (3,12), (4,8)`; dropping the terminal
pivot, the prices `10, 9, 12` strictly alternate. -/
theorem C4_amended_witness :
    altB (((zigzag_detector [10, 12, 9, 12, 8] (1/10)).dropLast).map Prod.snd)
      = true :=
  C4_amended_thm [10, 12, 9, 12, 8] (1/10) (by simp)
    (by with_unfolding_all decide) (by with_unfolding_all decide)
    (by with_unfolding_all decide)

/-! ## Facts about `assignLabels` and `label_and_prepare` -/

theorem assignLabels_length : ∀ (k : Nat) (df : List WaveRow),
    (assignLabels k df).length = df.length := by
  intro k df
  induction df generalizing k with
  | nil => rfl
  | cons w ws ih => simp [assignLabels, ih]

theorem assignLabels_getElem? : ∀ (k : Nat) (df : List WaveRow) (i : Nat),
    (assignLabels k df)[i]?
      = (df[i]?).map (fun w => { w with label := some (labelOf (k + i)) }) := by
  intro k df
  induction df generalizing k with
  | nil => intro i; rfl
  | cons w ws ih =>
    intro i
    cases i with
    | zero => simp [assignLabels]
    | succ j =>
      simp only [assignLabels, List.getElem?_cons_succ]
      rw [ih (k + 1) j]
      have : k + 1 + j = k + (j + 1) := by omega
      rw [this]

theorem label_and_prepare_X_length (df : List WaveRow) :
    (label_and_prepare df).2.1.length = df.length - 5 := by
  simp [label_and_prepare, assignLabels_length]

theorem label_and_prepare_yclass_length (df : List WaveRow) :
    (label_and_prepare df).2.2.1.length = df.length - 5 := by
  simp [label_and_prepare, assignLabels_length]

theorem label_and_prepare_yreg_length (df : List WaveRow) :
    (label_and_prepare df).2.2.2.length = df.length - 5 := by
  simp [label_and_prepare, assignLabels_length]

/-- Scalar row features are untouched by the label assignment. -/
theorem rowFeatures_relabel (w : WaveRow) (s : Option String) :
    rowFeatures { w with label := s } = rowFeatures w := rfl

/-- Claim C3, confirmed: `label_and_prepare` returns three index-aligned
sequences of equal length `len(waves) - 5` — one entry per `i` in
`range(len(waves) - 5)` (so the lower bound 0 is included and the upper
bound is exclusive) — where entry `i` is the 20-scalar feature vector
concatenating `change, duration, slope, volatility, direction` of waves
`i..i+3` in that fixed order, the class target is the positional Label of
wave `i+4`, and the regression target is the `change` of wave `i+4`; with
fewer than 5 waves all three sequences are empty. -/
theorem C3_training_set_thm (df : List WaveRow) :
    ((label_and_prepare df).2.1.length = df.length - 5 ∧
      (label_and_prepare df).2.2.1.length = df.length - 5 ∧
      (label_and_prepare df).2.2.2.length = df.length - 5) ∧
    (∀ i w0 w1 w2 w3 w4, df[i]? = some w0 → df[i + 1]? = some w1 →
      df[i + 2]? = some w2 → df[i + 3]? = some w3 → df[i + 4]? = some w4 →
      i < df.length - 5 →
      (label_and_prepare df).2.1[i]?
        = some (rowFeatures w0 ++ rowFeatures w1 ++ rowFeatures w2 ++ rowFeatures w3) ∧
      (rowFeatures w0 ++ rowFeatures w1 ++ rowFeatures w2 ++ rowFeatures w3).length = 20 ∧
      (label_and_prepare df).2.2.1[i]? = some (labelOf (i + 4)) ∧
      (label_and_prepare df).2.2.2[i]? = some w4.change) ∧
    (df.length < 5 →
      (label_and_prepare df).2.1 = [] ∧
      (label_and_prepare df).2.2.1 = [] ∧
      (label_and_prepare df).2.2.2 = []) := by
  refine ⟨⟨label_and_prepare_X_length df, label_and_prepare_yclass_length df,
    label_and_prepare_yreg_length df⟩, ?_, ?_⟩
  · intro i w0 w1 w2 w3 w4 h0 h1 h2 h3 h4 hi
    have hn : (assignLabels 0 df).length - 5 = df.length - 5 := by
      rw [assignLabels_length]
    have hget : ∀ (j : Nat) (w : WaveRow), df[j]? = some w →
        (assignLabels 0 df).getD j default
          = { w with label := some (labelOf j) } := by
      intro j w hw
      rw [List.getD_eq_getElem?_getD, assignLabels_getElem?, hw]
      simp
    have hrange4 : List.range 4 = [0, 1, 2, 3] := rfl
    refine ⟨?_, ?_, ?_, ?_⟩
    · show ((List.range ((assignLabels 0 df).length - 5)).map _)[i]? = _
      rw [List.getElem?_map, hn, List.getElem?_range hi]
      simp only [Option.map_some']
      rw [hrange4]
      simp only [List.foldl_cons, List.foldl_nil, List.nil_append, Nat.add_zero]
      rw [hget i w0 h0, hget (i + 1) w1 h1, hget (i + 2) w2 h2, hget (i + 3) w3 h3]
      simp only [rowFeatures_relabel, List.append_assoc]
    · simp [rowFeatures]
    · show ((List.range ((assignLabels 0 df).length - 5)).map _)[i]? = _
      rw [List.getElem?_map, hn, List.getElem?_range hi]
      simp only [Option.map_some']
      rw [hget (i + 4) w4 h4]
      rfl
    · show ((List.range ((assignLabels 0 df).length - 5)).map _)[i]? = _
      rw [List.getElem?_map, hn, List.getElem?_range hi]
      simp only [Option.map_some']
      rw [hget (i + 4) w4 h4]
  · intro hlt
    have hz : (assignLabels 0 df).length - 5 = 0 := by
      rw [assignLabels_length]; omega
    refine ⟨?_, ?_, ?_⟩ <;>
      · show ((List.range ((assignLabels 0 df).length - 5)).map _) = _
        rw [hz]
        rfl

/-- A concrete six-wave table for exercising `label_and_prepare`
(`change = 0, 1, …, 5`, all other scalar columns zero, no Label column). -/
def c3df : List WaveRow :=
  [⟨0, 0, 0, 0, 0, 0, 0, none⟩, ⟨0, 0, 1, 0, 0, 0, 0, none⟩,
    ⟨0, 0, 2, 0, 0, 0, 0, none⟩, ⟨0, 0, 3, 0, 0, 0, 0, none⟩,
    ⟨0, 0, 4, 0, 0, 0, 0, none⟩, ⟨0, 0, 5, 0, 0, 0, 0, none⟩]

/-- Witness for C3 on the six-wave table: one training example, built from
waves 0–3, labelled by wave 4's positional label (`Wave_5`) and targeting
wave 4's change. -/
theorem C3_training_set_witness :
    (label_and_prepare c3df).2.1[0]?
      = some (rowFeatures ⟨0, 0, 0, 0, 0, 0, 0, none⟩
          ++ rowFeatures ⟨0, 0, 1, 0, 0, 0, 0, none⟩
          ++ rowFeatures ⟨0, 0, 2, 0, 0, 0, 0, none⟩
          ++ rowFeatures ⟨0, 0, 3, 0, 0, 0, 0, none⟩) ∧
    (label_and_prepare c3df).2.2.1[0]? = some (labelOf 4) ∧
    (label_and_prepare c3df).2.2.2[0]? = some 4 := by
  have h := (C3_training_set_thm c3df).2.1 0
    ⟨0, 0, 0, 0, 0, 0, 0, none⟩ ⟨0, 0, 1, 0, 0, 0, 0, none⟩
    ⟨0, 0, 2, 0, 0, 0, 0, none⟩ ⟨0, 0, 3, 0, 0, 0, 0, none⟩
    ⟨0, 0, 4, 0, 0, 0, 0, none⟩ rfl rfl rfl rfl rfl (by decide)
  exact ⟨h.1, h.2.2.1, h.2.2.2⟩

/-- Claim C10 fails as stated: `label_and_prepare` mutates the wave table.
On a one-row table produced with no Label column, the returned table is not
the input table — the row has acquired `Label = "Wave_1"` in place (the
source's `df['Label'] = [...]` column assignment). -/
theorem C10_cex :
    (label_and_prepare [⟨0, 1, 1/5, 1, 1/5, 0, 1, none⟩]).1
        ≠ [⟨0, 1, 1/5, 1, 1/5, 0, 1, none⟩] ∧
    ((label_and_prepare [⟨0, 1, 1/5, 1, 1/5, 0, 1, none⟩]).1.headD default).label
        = some "Wave_1" := by
  with_unfolding_all decide

/-- Claim C10, amended: `label_and_prepare` mutates the wave table in place
by assigning the positional Label column (`Wave_1..Wave_5`, then
`Unknown`): the returned table has the same length and each row equals the
corresponding input row with only its `label` field overwritten — every
numeric wave attribute is left unchanged.  (The feature and target lists it
also returns are new artifacts.) -/
theorem C10_amended_thm (df : List WaveRow) :
    (label_and_prepare df).1.length = df.length ∧
    (∀ (i : Nat) (w : WaveRow), df[i]? = some w →
      (label_and_prepare df).1[i]? = some { w with label := some (labelOf i) }) := by
  constructor
  · exact assignLabels_length 0 df
  · intro i w hw
    show (assignLabels 0 df)[i]? = _
    rw [assignLabels_getElem?, hw]
    simp

/-- Witness for C10 (amended) on the one-row table: the output table keeps
length 1 and its row is the input row with `Label := "Wave_1"` added. -/
theorem C10_amended_witness :
    (label_and_prepare [(⟨0, 1, 1/5, 1, 1/5, 0, 1, none⟩ : WaveRow)]).1.length = 1 ∧
    (label_and_prepare [(⟨0, 1, 1/5, 1, 1/5, 0, 1, none⟩ : WaveRow)]).1[0]?
      = some { (⟨0, 1, 1/5, 1, 1/5, 0, 1, none⟩ : WaveRow) with
          label := some (labelOf 0) } :=
  ⟨(C10_amended_thm [⟨0, 1, 1/5, 1, 1/5, 0, 1, none⟩]).1,
    (C10_amended_thm [⟨0, 1, 1/5, 1, 1/5, 0, 1, none⟩]).2 0 _ rfl⟩

/-- Claim C9, confirmed: whenever the built training set has fewer than 2
feature vectors — in particular whenever fewer than 5 waves exist — the
`Run Analysis` pipeline takes the `st.error` branch with the user-facing
message `"Not enough data to train AI. Adjust the period or interval."`
and fits no model (the `fitted` outcome is not produced), rather than
raising a numeric or model exception. -/
theorem C9_guard_thm (std : List ℚ → ℚ) (prices : List ℚ) (threshold : ℚ) :
    ((label_and_prepare (extract_wave_features std prices
        (zigzag_detector prices threshold))).2.1.length < 2 →
      run_analysis std prices threshold
        = RunOutcome.error "Not enough data to train AI. Adjust the period or interval.") ∧
    ((extract_wave_features std prices (zigzag_detector prices threshold)).length < 5 →
      run_analysis std prices threshold
        = RunOutcome.error "Not enough data to train AI. Adjust the period or interval.") := by
  have key : (label_and_prepare (extract_wave_features std prices
      (zigzag_detector prices threshold))).2.1.length < 2 →
      run_analysis std prices threshold
        = RunOutcome.error "Not enough data to train AI. Adjust the period or interval." := by
    intro h
    simp only [run_analysis]
    rw [if_pos h]
  refine ⟨key, ?_⟩
  intro h5
  apply key
  rw [label_and_prepare_X_length]
  omega

/-- Witness for C9: on the two-price series `[10, 11]` (a single terminal
pivot, hence zero waves and an empty training set) the pipeline produces
the insufficient-data error outcome. -/
theorem C9_guard_witness :
    run_analysis (fun _ => 0) [10, 11] (1/2)
      = RunOutcome.error "Not enough data to train AI. Adjust the period or interval." :=
  (C9_guard_thm (fun _ => 0) [10, 11] (1/2)).2 (by with_unfolding_all decide)

/-! ## Refinement: `detect_triangles` equals its indexed specification -/

theorem detect_triangles_spec_cons (a b c d e : Nat × ℚ) (r : List (Nat × ℚ)) :
    detect_triangles_spec (a :: b :: c :: d :: e :: r)
      = (match triangleRule a b c d e with
          | none => detect_triangles_spec (b :: c :: d :: e :: r)
          | some p => p :: detect_triangles_spec (b :: c :: d :: e :: r)) := by
  have hlen : (a :: b :: c :: d :: e :: r).length - 4 = r.length + 1 := by
    simp only [List.length_cons]; omega
  have hlen2 : (b :: c :: d :: e :: r).length - 4 = r.length := by
    simp only [List.length_cons]; omega
  unfold detect_triangles_spec
  rw [hlen, hlen2, List.range_succ_eq_map, List.filterMap_cons, List.filterMap_map]
  have hshift : List.filterMap
      ((fun i => triangleRule ((a :: b :: c :: d :: e :: r).getD i (0, 0))
          ((a :: b :: c :: d :: e :: r).getD (i + 1) (0, 0))
          ((a :: b :: c :: d :: e :: r).getD (i + 2) (0, 0))
          ((a :: b :: c :: d :: e :: r).getD (i + 3) (0, 0))
          ((a :: b :: c :: d :: e :: r).getD (i + 4) (0, 0))) ∘ Nat.succ)
        (List.range r.length)
      = List.filterMap
        (fun i => triangleRule ((b :: c :: d :: e :: r).getD i (0, 0))
          ((b :: c :: d :: e :: r).getD (i + 1) (0, 0))
          ((b :: c :: d :: e :: r).getD (i + 2) (0, 0))
          ((b :: c :: d :: e :: r).getD (i + 3) (0, 0))
          ((b :: c :: d :: e :: r).getD (i + 4) (0, 0)))
        (List.range r.length) := by
    apply List.filterMap_congr
    intro i _
    simp only [Function.comp_apply]
    congr 1
  rw [hshift]
  have g0 : (a :: b :: c :: d :: e :: r).getD 0 (0, 0) = a := rfl
  have g1 : (a :: b :: c :: d :: e :: r).getD (0 + 1) (0, 0) = b := rfl
  have g2 : (a :: b :: c :: d :: e :: r).getD (0 + 2) (0, 0) = c := rfl
  have g3 : (a :: b :: c :: d :: e :: r).getD (0 + 3) (0, 0) = d := rfl
  have g4 : (a :: b :: c :: d :: e :: r).getD (0 + 4) (0, 0) = e := rfl
  rw [g0, g1, g2, g3, g4]
  cases triangleRule a b c d e <;> rfl

theorem detect_triangles_eq : ∀ ps : List (Nat × ℚ),
    detect_triangles ps = detect_triangles_spec ps := by
  intro ps
  induction ps with
  | nil => simp [detect_triangles, detect_triangles_spec]
  | cons a t ih =>
    rcases t with _ | ⟨b, _ | ⟨c, _ | ⟨d, _ | ⟨e, r⟩⟩⟩⟩
    · simp [detect_triangles, detect_triangles_spec]
    · simp [detect_triangles, detect_triangles_spec]
    · simp [detect_triangles, detect_triangles_spec]
    · simp [detect_triangles, detect_triangles_spec]
    · rw [detect_triangles_spec_cons a b c d e r, ← ih]
      obtain ⟨i0, h0⟩ := a
      obtain ⟨i1, l0⟩ := b
      obtain ⟨i2, h1⟩ := c
      obtain ⟨i3, l1⟩ := d
      obtain ⟨i4, h2⟩ := e
      simp only [detect_triangles, triangleRule]
      split_ifs <;> rfl

/-- Claim C7, confirmed: for every 5-pivot window `detect_triangles`
evaluates the rules in the fixed order Contracting Triangle, Running
Triangle, Barrier Triangle with the first matching rule winning, emits
nothing for a window matching none, and anchors each emission at the middle
(position-2) pivot's index — it equals the indexed per-window specification
`detect_triangles_spec`/`triangleRule` rule for rule.  In particular the
window with highs `100, 90, 80` and lows `50, 60` yields a Contracting
Triangle, and the window with highs `100, 100, 100` and lows `50, 55`
yields a Barrier Triangle (first high equals last high; note that a
5-pivot window has exactly two low positions, so only the first two of the
spec's quoted low prices can occur in one window). -/
theorem C7_triangles_thm :
    (∀ pivots : List (Nat × ℚ), detect_triangles pivots = detect_triangles_spec pivots) ∧
    detect_triangles [(0, 100), (1, 50), (2, 90), (3, 60), (4, 80)]
      = [(2, "Contracting Triangle")] ∧
    detect_triangles [(0, 100), (1, 50), (2, 100), (3, 55), (4, 100)]
      = [(2, "Barrier Triangle")] :=
  ⟨detect_triangles_eq, by with_unfolding_all decide, by with_unfolding_all decide⟩
